import Mathlib

/-!
Verification of the bfc compiler core: the BF IR and parser
(`src/bfir.rs`) and the optimization pipeline (`src/optimize.rs`).

The parser file defines the full IR (with offsets, `Set` and
`MultiplyMove`); the optimizer file works over the earlier IR revision
whose variants carry a single field.  Both are embedded below, each in
its own namespace.
-/

namespace bfir

/-- `Cell` models Rust's `Wrapping<i8>`: an 8-bit integer with wrapping
two's-complement arithmetic, i.e. the additive group of integers
modulo 256. -/
abbrev Cell := ZMod 256

/-- The BF IR from `src/bfir.rs` (`enum Instruction`).  `MultiplyMove`'s
`HashMap<isize, Cell>` is represented as an association list. -/
inductive Instruction where
  | increment (amount : Cell) (offset : Int)
  | pointerIncrement (amount : Int)
  | read
  | write
  | loop (body : List Instruction)
  | set (amount : Cell) (offset : Int)
  | multiplyMove (map : List (Int × Cell))

/-- Modelled from the spec: the `diagnostics` module is not among the
sources; per the spec the diagnostic level is `Error` or `Warning`. -/
inductive Level where
  | error
  | warning
deriving DecidableEq

/-- Modelled from the spec: the diagnostic payload (`Info`) carries a
level, filename, message, optional byte-index range and optional source
snapshot.  The Rust `Range<usize>` `i..j` is represented as the pair
`(i, j)`. -/
structure Info where
  level : Level
  filename : String
  message : String
  position : Option (Nat × Nat)
  source : Option String

/-- The unmatched-`]` diagnostic produced by `parse` for the `]` at
source index `i`. -/
def unmatchedCloseInfo (f s : String) (i : Nat) : Info :=
  { level := .error, filename := f, message := "This ] has no matching [",
    position := some (i, i), source := some s }

/-- The unmatched-`[` diagnostic produced by `parse` for the `[` at
source index `i`. -/
def unmatchedOpenInfo (f s : String) (i : Nat) : Info :=
  { level := .error, filename := f, message := "This [ has no matching ]",
    position := some (i, i), source := some s }

/-- The scanning loop of `parse`: `instructions` is the buffer of the
current scope, `stack` holds the buffers of the open parent loops
together with the source indices of their opening brackets.  The Rust
`Vec` is pushed/popped at its end; we model it by a list whose head is
the most recently pushed frame, so Rust's `stack.last()` is the head. -/
def parseGo (filename source : String) :
    List (Nat × Char) → List Instruction → List (List Instruction × Nat) →
    Except Info (List Instruction)
  | [], instructions, stack =>
    match stack with
    | (_, pos) :: _ =>
      .error { level := .error, filename := filename,
               message := "This [ has no matching ]",
               position := some (pos, pos), source := some source }
    | [] => .ok instructions
  | (index, c) :: rest, instructions, stack =>
    match c with
    | '+' => parseGo filename source rest
        (instructions ++ [.increment 1 0]) stack
    | '-' => parseGo filename source rest
        (instructions ++ [.increment (-1) 0]) stack
    | '>' => parseGo filename source rest
        (instructions ++ [.pointerIncrement 1]) stack
    | '<' => parseGo filename source rest
        (instructions ++ [.pointerIncrement (-1)]) stack
    | ',' => parseGo filename source rest (instructions ++ [.read]) stack
    | '.' => parseGo filename source rest (instructions ++ [.write]) stack
    | '[' => parseGo filename source rest [] ((instructions, index) :: stack)
    | ']' =>
      match stack with
      | (parentInstr, _) :: stackRest =>
        parseGo filename source rest (parentInstr ++ [.loop instructions]) stackRest
      | [] =>
        .error { level := .error, filename := filename,
                 message := "This ] has no matching [",
                 position := some (index, index), source := some source }
    | _ => parseGo filename source rest instructions stack

/-- `parse` from `src/bfir.rs`: scan the source characters (with their
indices, as Rust's `source.chars().enumerate()`) and build the IR. -/
def parse (filename source : String) : Except Info (List Instruction) :=
  parseGo filename source source.toList.enum [] []

/-- Bracket-counter scan, following the spec's words: `[` opens a loop,
`]` closes one (`none` on an unmatched `]`); other characters are
comments.  Returns the number of open loops after the scan. -/
def scanBrackets : List Char → Nat → Option Nat
  | [], d => some d
  | c :: cs, d =>
    if c = '[' then scanBrackets cs (d + 1)
    else if c = ']' then
      match d with
      | 0 => none
      | d' + 1 => scanBrackets cs d'
    else scanBrackets cs d

/-- The `[` and `]` brackets of the source are balanced: the scan never
underflows and ends with no loop open. -/
def Balanced (s : String) : Prop := scanBrackets s.toList 0 = some 0

/-- The index of the first `]` that closes more loops than are open
(given `d` already-open loops), if any. -/
def firstUnderflow : List (Nat × Char) → Nat → Option Nat
  | [], _ => none
  | (j, c) :: cs, d =>
    if c = '[' then firstUnderflow cs (d + 1)
    else if c = ']' then
      match d with
      | 0 => some j
      | d' + 1 => firstUnderflow cs d'
    else firstUnderflow cs d

/-- Indices of the outstanding (unclosed) `[` openers after the scan,
innermost (most recent) first, starting from the outstanding openers
`acc`. -/
def openers : List (Nat × Char) → List Nat → List Nat
  | [], acc => acc
  | (j, c) :: cs, acc =>
    if c = '[' then openers cs (j :: acc)
    else if c = ']' then openers cs acc.tail
    else openers cs acc

/-- The UTF-8 byte offset of the character at index `i`. -/
def byteOffset (l : List Char) (i : Nat) : Nat :=
  ((l.take i).map Char.utf8Size).sum

/-- No `Set` and no `MultiplyMove` instruction occurs at any nesting
depth. -/
def noSetMul : List Instruction → Prop
  | [] => True
  | .loop body :: rest => noSetMul body ∧ noSetMul rest
  | .set _ _ :: _ => False
  | .multiplyMove _ :: _ => False
  | _ :: rest => noSetMul rest

lemma noSetMul_append {l₁ l₂ : List Instruction} (h₁ : noSetMul l₁)
    (h₂ : noSetMul l₂) : noSetMul (l₁ ++ l₂) := by
  induction l₁ with
  | nil => simpa using h₂
  | cons hd tl ih => cases hd <;> simp_all [noSetMul]

lemma parseGo_open (f s : String) (j : Nat) (cs : List (Nat × Char))
    (instrs : List Instruction) (stack : List (List Instruction × Nat)) :
    parseGo f s ((j, '[') :: cs) instrs stack =
      parseGo f s cs [] ((instrs, j) :: stack) := rfl

lemma parseGo_close_cons (f s : String) (j : Nat) (cs : List (Nat × Char))
    (instrs parentInstr : List Instruction)
    (jp : Nat) (stackRest : List (List Instruction × Nat)) :
    parseGo f s ((j, ']') :: cs) instrs ((parentInstr, jp) :: stackRest) =
      parseGo f s cs (parentInstr ++ [.loop instrs]) stackRest := rfl

lemma parseGo_close_nil (f s : String) (j : Nat) (cs : List (Nat × Char))
    (instrs : List Instruction) :
    parseGo f s ((j, ']') :: cs) instrs [] =
      .error (unmatchedCloseInfo f s j) := rfl

/-- Characters other than `[` and `]` leave the loop stack untouched and
only (possibly) extend the current buffer with a `Set`/`MultiplyMove`
free instruction. -/
lemma parseGo_nonbracket (f s : String) (j : Nat) (c : Char)
    (cs : List (Nat × Char)) (instrs : List Instruction)
    (stack : List (List Instruction × Nat))
    (h1 : c ≠ '[') (h2 : c ≠ ']') :
    ∃ instrs', parseGo f s ((j, c) :: cs) instrs stack =
        parseGo f s cs instrs' stack
      ∧ (noSetMul instrs → noSetMul instrs') := by
  by_cases p1 : c = '+'
  · exact ⟨instrs ++ [.increment 1 0], by rw [p1]; exact rfl,
      fun h => noSetMul_append h (by simp [noSetMul])⟩
  by_cases p2 : c = '-'
  · exact ⟨instrs ++ [.increment (-1) 0], by rw [p2]; exact rfl,
      fun h => noSetMul_append h (by simp [noSetMul])⟩
  by_cases p3 : c = '>'
  · exact ⟨instrs ++ [.pointerIncrement 1], by rw [p3]; exact rfl,
      fun h => noSetMul_append h (by simp [noSetMul])⟩
  by_cases p4 : c = '<'
  · exact ⟨instrs ++ [.pointerIncrement (-1)], by rw [p4]; exact rfl,
      fun h => noSetMul_append h (by simp [noSetMul])⟩
  by_cases p5 : c = ','
  · exact ⟨instrs ++ [.read], by rw [p5]; exact rfl,
      fun h => noSetMul_append h (by simp [noSetMul])⟩
  by_cases p6 : c = '.'
  · exact ⟨instrs ++ [.write], by rw [p6]; exact rfl,
      fun h => noSetMul_append h (by simp [noSetMul])⟩
  refine ⟨instrs, ?_, fun h => h⟩
  simp only [parseGo, p1, p2, p3, p4, p5, p6, h1, h2]

lemma firstUnderflow_scanBrackets :
    ∀ (cs : List (Nat × Char)) (d i : Nat),
    firstUnderflow cs d = some i → scanBrackets (cs.map Prod.snd) d = none := by
  intro cs
  induction cs with
  | nil => intro d i h; simp [firstUnderflow] at h
  | cons hd tl ih =>
    obtain ⟨j, c⟩ := hd
    intro d i h
    by_cases h1 : c = '['
    · subst h1
      simp only [firstUnderflow, if_pos rfl] at h
      simpa [scanBrackets] using ih (d + 1) i h
    by_cases h2 : c = ']'
    · subst h2
      simp only [firstUnderflow, reduceIte] at h
      match d with
      | 0 => simp [scanBrackets]
      | d' + 1 => simpa [scanBrackets] using ih d' i h
    · simp only [firstUnderflow, if_neg h1, if_neg h2] at h
      simpa [scanBrackets, h1, h2] using ih d i h

lemma openers_scanBrackets :
    ∀ (cs : List (Nat × Char)) (acc : List Nat),
    firstUnderflow cs acc.length = none →
    scanBrackets (cs.map Prod.snd) acc.length = some (openers cs acc).length := by
  intro cs
  induction cs with
  | nil => intro acc _; simp [scanBrackets, openers]
  | cons hd tl ih =>
    obtain ⟨j, c⟩ := hd
    intro acc h
    by_cases h1 : c = '['
    · subst h1
      simp only [firstUnderflow, if_pos rfl] at h
      have := ih (j :: acc) (by simpa using h)
      simpa [scanBrackets, openers] using this
    by_cases h2 : c = ']'
    · subst h2
      simp only [firstUnderflow, reduceIte] at h
      match acc with
      | [] => simp at h
      | a :: rest =>
        have := ih rest (by simpa using h)
        simpa [scanBrackets, openers] using this
    · simp only [firstUnderflow, if_neg h1, if_neg h2] at h
      simpa [scanBrackets, openers, h1, h2] using ih acc h

lemma firstUnderflow_mem :
    ∀ (cs : List (Nat × Char)) (d i : Nat),
    firstUnderflow cs d = some i → (i, ']') ∈ cs := by
  intro cs
  induction cs with
  | nil => intro d i h; simp [firstUnderflow] at h
  | cons hd tl ih =>
    obtain ⟨j, c⟩ := hd
    intro d i h
    by_cases h1 : c = '['
    · subst h1
      simp only [firstUnderflow, if_pos rfl] at h
      exact List.mem_cons_of_mem _ (ih (d + 1) i h)
    by_cases h2 : c = ']'
    · subst h2
      simp only [firstUnderflow, reduceIte] at h
      match d with
      | 0 =>
        obtain rfl : j = i := by simpa using h
        exact List.mem_cons_self _ _
      | d' + 1 => exact List.mem_cons_of_mem _ (ih d' i h)
    · simp only [firstUnderflow, if_neg h1, if_neg h2] at h
      exact List.mem_cons_of_mem _ (ih d i h)

lemma openers_mem :
    ∀ (cs : List (Nat × Char)) (acc : List Nat) (x : Nat),
    x ∈ openers cs acc → x ∈ acc ∨ (x, '[') ∈ cs := by
  intro cs
  induction cs with
  | nil => intro acc x h; exact Or.inl (by simpa [openers] using h)
  | cons hd tl ih =>
    obtain ⟨j, c⟩ := hd
    intro acc x h
    by_cases h1 : c = '['
    · subst h1
      simp only [openers, if_pos rfl] at h
      rcases ih (j :: acc) x h with hx | hx
      · rcases List.mem_cons.mp hx with rfl | hx
        · exact Or.inr (List.mem_cons_self _ _)
        · exact Or.inl hx
      · exact Or.inr (List.mem_cons_of_mem _ hx)
    by_cases h2 : c = ']'
    · subst h2
      simp only [openers, reduceIte] at h
      rcases ih acc.tail x h with hx | hx
      · exact Or.inl (List.tail_subset _ hx)
      · exact Or.inr (List.mem_cons_of_mem _ hx)
    · simp only [openers, if_neg h1, if_neg h2] at h
      rcases ih acc x h with hx | hx
      · exact Or.inl hx
      · exact Or.inr (List.mem_cons_of_mem _ hx)

/-- If the scan hits a `]` with no loop open, `parse` stops there with
the unmatched-`]` diagnostic, pointing at that (first such) index. -/
lemma parseGo_underflow (f s : String) :
    ∀ (cs : List (Nat × Char)) (instrs : List Instruction)
      (stack : List (List Instruction × Nat)) (i : Nat),
    firstUnderflow cs stack.length = some i →
    parseGo f s cs instrs stack = .error (unmatchedCloseInfo f s i) := by
  intro cs
  induction cs with
  | nil => intro instrs stack i h; simp [firstUnderflow] at h
  | cons hd tl ih =>
    obtain ⟨j, c⟩ := hd
    intro instrs stack i h
    by_cases h1 : c = '['
    · subst h1
      simp only [firstUnderflow, if_pos rfl] at h
      rw [parseGo_open]
      exact ih _ _ i (by simpa using h)
    by_cases h2 : c = ']'
    · subst h2
      simp only [firstUnderflow, reduceIte] at h
      match stack with
      | [] =>
        have hj : j = i := by simpa using h
        rw [parseGo_close_nil, hj]
      | (parent, jp) :: stackRest =>
        rw [parseGo_close_cons]
        exact ih _ _ i (by simpa using h)
    · simp only [firstUnderflow, if_neg h1, if_neg h2] at h
      obtain ⟨instrs', heq, _⟩ := parseGo_nonbracket f s j c tl instrs stack h1 h2
      rw [heq]
      exact ih _ _ i h

/-- If the scan never underflows but leaves open loops outstanding,
`parse` fails with the unmatched-`[` diagnostic pointing at the
innermost (most recently opened) outstanding opener. -/
lemma parseGo_unmatched_open (f s : String) :
    ∀ (cs : List (Nat × Char)) (instrs : List Instruction)
      (stack : List (List Instruction × Nat)) (i : Nat) (rest : List Nat),
    firstUnderflow cs stack.length = none →
    openers cs (stack.map Prod.snd) = i :: rest →
    parseGo f s cs instrs stack = .error (unmatchedOpenInfo f s i) := by
  intro cs
  induction cs with
  | nil =>
    intro instrs stack i rest _ hop
    simp only [openers] at hop
    match stack, hop with
    | (parent, jp) :: stackRest, hop =>
      obtain rfl : jp = i := by simpa using congrArg List.head? hop
      rfl
  | cons hd tl ih =>
    obtain ⟨j, c⟩ := hd
    intro instrs stack i rest hfu hop
    by_cases h1 : c = '['
    · subst h1
      simp only [firstUnderflow, if_pos rfl] at hfu
      simp only [openers, if_pos rfl] at hop
      rw [parseGo_open]
      exact ih _ ((instrs, j) :: stack) i rest (by simpa using hfu) (by simpa using hop)
    by_cases h2 : c = ']'
    · subst h2
      simp only [firstUnderflow, reduceIte] at hfu
      simp only [openers, reduceIte] at hop
      match stack with
      | [] => simp at hfu
      | (parent, jp) :: stackRest =>
        rw [parseGo_close_cons]
        exact ih _ stackRest i rest (by simpa using hfu) (by simpa using hop)
    · simp only [firstUnderflow, if_neg h1, if_neg h2] at hfu
      simp only [openers, if_neg h1, if_neg h2] at hop
      obtain ⟨instrs', heq, _⟩ := parseGo_nonbracket f s j c tl instrs stack h1 h2
      rw [heq]
      exact ih _ stack i rest hfu hop

/-- If the scan neither underflows nor leaves open loops, `parse`
succeeds. -/
lemma parseGo_balanced (f s : String) :
    ∀ (cs : List (Nat × Char)) (instrs : List Instruction)
      (stack : List (List Instruction × Nat)),
    firstUnderflow cs stack.length = none →
    openers cs (stack.map Prod.snd) = [] →
    ∃ is, parseGo f s cs instrs stack = .ok is := by
  intro cs
  induction cs with
  | nil =>
    intro instrs stack _ hop
    simp only [openers] at hop
    match stack, hop with
    | [], _ => exact ⟨instrs, rfl⟩
  | cons hd tl ih =>
    obtain ⟨j, c⟩ := hd
    intro instrs stack hfu hop
    by_cases h1 : c = '['
    · subst h1
      simp only [firstUnderflow, if_pos rfl] at hfu
      simp only [openers, if_pos rfl] at hop
      rw [parseGo_open]
      exact ih _ ((instrs, j) :: stack) (by simpa using hfu) (by simpa using hop)
    by_cases h2 : c = ']'
    · subst h2
      simp only [firstUnderflow, reduceIte] at hfu
      simp only [openers, reduceIte] at hop
      match stack with
      | [] => simp at hfu
      | (parent, jp) :: stackRest =>
        rw [parseGo_close_cons]
        exact ih _ stackRest (by simpa using hfu) (by simpa using hop)
    · simp only [firstUnderflow, if_neg h1, if_neg h2] at hfu
      simp only [openers, if_neg h1, if_neg h2] at hop
      obtain ⟨instrs', heq, _⟩ := parseGo_nonbracket f s j c tl instrs stack h1 h2
      rw [heq]
      exact ih _ stack hfu hop

/-- Every instruction the scanning loop builds is `Set` and
`MultiplyMove` free. -/
lemma parseGo_noSetMul (f s : String) :
    ∀ (cs : List (Nat × Char)) (instrs : List Instruction)
      (stack : List (List Instruction × Nat)) (is : List Instruction),
    parseGo f s cs instrs stack = .ok is →
    noSetMul instrs → (∀ p ∈ stack, noSetMul p.1) → noSetMul is := by
  intro cs
  induction cs with
  | nil =>
    intro instrs stack is h hinstrs _
    match stack, h with
    | [], h =>
      obtain rfl : instrs = is := by simpa [parseGo] using h
      exact hinstrs
  | cons hd tl ih =>
    obtain ⟨j, c⟩ := hd
    intro instrs stack is h hinstrs hstack
    by_cases h1 : c = '['
    · subst h1
      rw [parseGo_open] at h
      refine ih _ ((instrs, j) :: stack) is h (by simp [noSetMul]) ?_
      intro p hp
      rcases List.mem_cons.mp hp with rfl | hp
      · exact hinstrs
      · exact hstack p hp
    by_cases h2 : c = ']'
    · subst h2
      match stack with
      | [] => rw [parseGo_close_nil] at h; cases h
      | (parent, jp) :: stackRest =>
        rw [parseGo_close_cons] at h
        refine ih _ stackRest is h ?_ fun p hp => hstack p (List.mem_cons_of_mem _ hp)
        exact noSetMul_append (hstack (parent, jp) (List.mem_cons_self _ _))
          (by simp [noSetMul, hinstrs])
    · obtain ⟨instrs', heq, hns⟩ := parseGo_nonbracket f s j c tl instrs stack h1 h2
      rw [heq] at h
      exact ih _ stack is h (hns hinstrs) hstack

/-- C7: for every filename and source string, `parse` returns `Ok`
exactly when the `[` and `]` brackets of the source are balanced;
otherwise it returns (as a value — the embedding is a total function)
one of exactly two diagnostics, unmatched `]` or unmatched `[`, and for
an unmatched `]` parsing halts at the first structurally impossible
`]`. -/
theorem parse_ok_iff_balanced (f s : String) :
    ((∃ is, parse f s = .ok is) ↔ Balanced s) ∧
    (∀ e, parse f s = .error e →
      e.message = "This ] has no matching [" ∨
      e.message = "This [ has no matching ]") ∧
    (∀ i, firstUnderflow s.toList.enum 0 = some i →
      parse f s = .error (unmatchedCloseInfo f s i)) := by
  have hsnd : s.toList.enum.map Prod.snd = s.toList := List.enum_map_snd _
  have hclose : ∀ i, firstUnderflow s.toList.enum 0 = some i →
      parse f s = .error (unmatchedCloseInfo f s i) := by
    intro i h
    rw [parse]
    exact parseGo_underflow f s _ [] [] i h
  refine ⟨⟨?_, ?_⟩, ?_, hclose⟩
  · rintro ⟨is, hok⟩
    cases hfu : firstUnderflow s.toList.enum 0 with
    | some i => rw [hclose i hfu] at hok; cases hok
    | none =>
      cases hop : openers s.toList.enum [] with
      | nil =>
        have h2 := openers_scanBrackets s.toList.enum [] (by simpa using hfu)
        rw [hsnd, hop] at h2
        simpa [Balanced] using h2
      | cons i rest =>
        have := parseGo_unmatched_open f s s.toList.enum [] [] i rest
          (by simpa using hfu) (by simpa using hop)
        rw [parse, this] at hok
        cases hok
  · intro hbal
    have hfu : firstUnderflow s.toList.enum 0 = none := by
      cases hfu2 : firstUnderflow s.toList.enum 0 with
      | none => rfl
      | some i =>
        have := firstUnderflow_scanBrackets s.toList.enum 0 i hfu2
        rw [hsnd] at this
        rw [Balanced, this] at hbal
        cases hbal
    have h2 := openers_scanBrackets s.toList.enum [] (by simpa using hfu)
    rw [hsnd] at h2
    simp only [List.length_nil] at h2
    rw [Balanced] at hbal
    rw [hbal] at h2
    have hop : openers s.toList.enum [] = [] :=
      List.length_eq_zero.mp (by simpa using h2.symm)
    rw [parse]
    exact parseGo_balanced f s s.toList.enum [] [] (by simpa using hfu)
      (by simpa using hop)
  · intro e he
    cases hfu : firstUnderflow s.toList.enum 0 with
    | some i =>
      rw [hclose i hfu] at he
      simp only [Except.error.injEq] at he
      subst he
      exact Or.inl rfl
    | none =>
      cases hop : openers s.toList.enum [] with
      | nil =>
        obtain ⟨is, h⟩ := parseGo_balanced f s s.toList.enum [] []
          (by simpa using hfu) (by simpa using hop)
        rw [parse, h] at he
        cases he
      | cons i rest =>
        have h := parseGo_unmatched_open f s s.toList.enum [] [] i rest
          (by simpa using hfu) (by simpa using hop)
        rw [parse, h] at he
        simp only [Except.error.injEq] at he
        subst he
        exact Or.inr rfl

/-- Witness for C7: `"[]"` is balanced and parses successfully. -/
theorem parse_ok_iff_balanced_w : ∃ is, parse "" "[]" = .ok is :=
  (parse_ok_iff_balanced "" "[]").1.mpr rfl

/-- C3 counterexample: the claim says the reported position for a source
ending with unclosed `[` is the index of the *outermost* outstanding
opener.  For `"[["` that would be index 0, but `parse` reports index 1
(the innermost: Rust's `stack.last()`), so no diagnostic with position
`(0, 0)` is returned. -/
theorem parse_unmatched_open_cex :
    ¬ ∃ e, parse "" "[[" = .error e ∧ e.position = some (0, 0) := by
  rintro ⟨e, he, hp⟩
  rw [show parse "" "[[" = .error (unmatchedOpenInfo "" "[[" 1) from rfl] at he
  simp only [Except.error.injEq] at he
  subst he
  simp [unmatchedOpenInfo] at hp

/-- C3 (amended): when the scan ends with at least one unclosed `[` (and
no earlier unmatched `]`), `parse` fails with a diagnostic whose
reported position is the index of the *innermost* (most recently
opened) outstanding opener — the head of the outstanding-opener list,
which is Rust's `stack.last()`. -/
theorem parse_unmatched_open_innermost (f s : String) (i : Nat)
    (rest : List Nat)
    (hfu : firstUnderflow s.toList.enum 0 = none)
    (hop : openers s.toList.enum [] = i :: rest) :
    parse f s = .error (unmatchedOpenInfo f s i) := by
  rw [parse]
  exact parseGo_unmatched_open f s s.toList.enum [] [] i rest
    (by simpa using hfu) (by simpa using hop)

/-- Witness for C3 (amended): `"[["` has outstanding openers at indices
1 (innermost) and 0; the diagnostic points at index 1. -/
theorem parse_unmatched_open_innermost_w :
    firstUnderflow "[[".toList.enum 0 = none ∧
    openers "[[".toList.enum [] = [1, 0] ∧
    parse "" "[[" = .error (unmatchedOpenInfo "" "[[" 1) :=
  ⟨rfl, rfl, parse_unmatched_open_innermost "" "[[" 1 [0] rfl rfl⟩

/-- C6 counterexample: positions are character indices, not byte
offsets.  In `"é]"` the unmatched `]` is the character at index 1 but
at byte offset 2 (`é` is two bytes in UTF-8); `parse` reports `(1, 1)`. -/
theorem parse_position_byte_cex :
    (∃ e, parse "" "é]" = .error e ∧ e.position = some (1, 1)) ∧
    byteOffset "é]".toList 1 = 2 ∧ (1 : Nat) ≠ 2 :=
  ⟨⟨_, rfl, rfl⟩, rfl, by decide⟩

/-- C6 (amended): every diagnostic position returned by `parse` is a
zero-based *character* index into the source (for ASCII-only sources
this coincides with the byte offset), and for the single offending
character the reported range is the inclusive pair `(i, i)`. -/
theorem parse_position_char_index (f s : String) (e : Info)
    (he : parse f s = .error e) :
    ∃ i c, e.position = some (i, i) ∧ s.toList[i]? = some c ∧
      (c = ']' ∨ c = '[') := by
  cases hfu : firstUnderflow s.toList.enum 0 with
  | some i =>
    have hX := parseGo_underflow f s s.toList.enum [] [] i hfu
    rw [parse, hX] at he
    simp only [Except.error.injEq] at he
    subst he
    refine ⟨i, ']', rfl, ?_, Or.inl rfl⟩
    have := firstUnderflow_mem s.toList.enum 0 i hfu
    exact List.mem_enum_iff_getElem?.mp this
  | none =>
    cases hop : openers s.toList.enum [] with
    | nil =>
      obtain ⟨is, h⟩ := parseGo_balanced f s s.toList.enum [] []
        (by simpa using hfu) (by simpa using hop)
      rw [parse, h] at he
      cases he
    | cons i rest =>
      have hX := parseGo_unmatched_open f s s.toList.enum [] [] i rest
        (by simpa using hfu) (by simpa using hop)
      rw [parse, hX] at he
      simp only [Except.error.injEq] at he
      subst he
      refine ⟨i, '[', rfl, ?_, Or.inr rfl⟩
      rcases openers_mem s.toList.enum [] i
          (by rw [hop]; exact List.mem_cons_self _ _) with hc | hc
      · cases hc
      · exact List.mem_enum_iff_getElem?.mp hc

/-- Witness for C6 (amended): the diagnostic for `"]"` points at the
`]` character at index 0, range `(0, 0)`. -/
theorem parse_position_char_index_w :
    ∃ i c,
      (unmatchedCloseInfo "" "]" 0).position = some (i, i) ∧
      "]".toList[i]? = some c ∧ (c = ']' ∨ c = '[') :=
  parse_position_char_index "" "]" _ rfl

/-- C9: whenever `parse` succeeds, the returned instruction sequence
contains no `Set` and no `MultiplyMove` at any nesting depth. -/
theorem parse_no_set_multiply (f s : String) (is : List Instruction)
    (h : parse f s = .ok is) : noSetMul is := by
  rw [parse] at h
  exact parseGo_noSetMul f s s.toList.enum [] [] is h
    (by simp [noSetMul]) (by simp)

/-- Witness for C9 at the source `"+[.]"`. -/
theorem parse_no_set_multiply_w :
    noSetMul [Instruction.increment 1 0, Instruction.loop [Instruction.write]] :=
  parse_no_set_multiply "" "+[.]" _ rfl

end bfir

namespace rust_src

/-- `Cell`: 8-bit wrapping two's-complement arithmetic (spec §3/§6),
i.e. the integers modulo 256. -/
abbrev Cell := ZMod 256

/-- Modelled from the spec: `rust_src/src/bfir.rs` is not among the
sources; the variant shapes follow their use in
`rust_src/src/optimize.rs` (single-field tuple variants, no offsets),
and the field types follow the spec: `Increment`/`Set` amounts are
8-bit wrapping cells, `PointerIncrement` amounts are signed
machine-width integers (modelled as unbounded `Int`). -/
inductive Instruction where
  | increment (amount : Cell)
  | pointerIncrement (amount : Int)
  | read
  | write
  | loop (body : List Instruction)
  | set (amount : Cell)

/-- itertools' `coalesce` on the tail: `acc` is the current accumulator;
`f acc y = some m` merges `y` into the accumulator, `none` emits the
accumulator and restarts from `y`. -/
def coalesceGo {α : Type} (f : α → α → Option α) : α → List α → List α
  | acc, [] => [acc]
  | acc, y :: ys =>
    match f acc y with
    | some merged => coalesceGo f merged ys
    | none => acc :: coalesceGo f y ys

/-- itertools' `coalesce`. -/
def coalesce {α : Type} (f : α → α → Option α) : List α → List α
  | [] => []
  | x :: xs => coalesceGo f x xs

/-- If merging never fabricates a `Loop` (each merged value is either
the old accumulator or not a `Loop`), every `Loop` in the coalesced
list already occurs in the input. -/
lemma coalesceGo_loop_mem {f : Instruction → Instruction → Option Instruction}
    (hf : ∀ a b c, f a b = some c → c = a ∨ ∀ body, c ≠ Instruction.loop body) :
    ∀ (ys : List Instruction) (acc : Instruction) (body : List Instruction),
    Instruction.loop body ∈ coalesceGo f acc ys →
    Instruction.loop body = acc ∨ Instruction.loop body ∈ ys := by
  intro ys
  induction ys with
  | nil =>
    intro acc body h
    exact Or.inl (by simpa [coalesceGo] using h)
  | cons y ys ih =>
    intro acc body h
    cases hfy : f acc y with
    | some m =>
      simp only [coalesceGo, hfy] at h
      rcases ih m body h with hm | hm
      · rcases hf acc y m hfy with rfl | hnl
        · exact Or.inl hm
        · exact absurd hm.symm (hnl body)
      · exact Or.inr (List.mem_cons_of_mem _ hm)
    | none =>
      simp only [coalesceGo, hfy] at h
      rcases List.mem_cons.mp h with hm | hm
      · exact Or.inl hm
      · rcases ih y body hm with hy | hy
        · exact Or.inr (hy ▸ List.mem_cons_self _ _)
        · exact Or.inr (List.mem_cons_of_mem _ hy)

lemma coalesce_loop_mem {f : Instruction → Instruction → Option Instruction}
    (hf : ∀ a b c, f a b = some c → c = a ∨ ∀ body, c ≠ Instruction.loop body)
    {l : List Instruction} {body : List Instruction}
    (h : Instruction.loop body ∈ coalesce f l) :
    Instruction.loop body ∈ l := by
  match l with
  | [] => cases h
  | x :: xs =>
    rcases coalesceGo_loop_mem hf xs x body h with hx | hx
    · exact hx ▸ List.mem_cons_self _ _
    · exact List.mem_cons_of_mem _ hx

lemma sizeOf_lt_of_loop_mem {l body : List Instruction}
    (h : Instruction.loop body ∈ l) : sizeOf body < sizeOf l := by
  have h1 := List.sizeOf_lt_of_mem h
  have h2 : sizeOf (Instruction.loop body) = 1 + sizeOf body := by
    simp [Instruction.loop.sizeOf_spec]
  omega

/-- The merging closure of `combine_increments`: collapse consecutive
increments. -/
def mergeIncrements (prev_instr instr : Instruction) : Option Instruction :=
  match prev_instr, instr with
  | .increment prev_amount, .increment amount =>
    some (.increment (amount + prev_amount))
  | _, _ => none

/-- The filtering closure of `combine_increments`: remove any
increments of 0. -/
def keepNonzeroIncrement (instr : Instruction) : Bool :=
  match instr with
  | .increment amount => if amount = 0 then false else true
  | _ => true

lemma mergeIncrements_not_loop (a b c : Instruction)
    (h : mergeIncrements a b = some c) :
    c = a ∨ ∀ body, c ≠ Instruction.loop body := by
  cases a <;> cases b <;> simp [mergeIncrements] at h <;> subst h <;>
    exact Or.inr (by simp)

/-- `combine_increments` from `src/optimize.rs`: coalesce consecutive
increments, drop increments of 0, then combine increments in nested
loops too. -/
def combine_increments (instrs : List Instruction) : List Instruction :=
  ((coalesce mergeIncrements instrs).filter keepNonzeroIncrement).attach.map
    (fun x =>
      match x with
      | ⟨.loop body, _⟩ => .loop (combine_increments body)
      | ⟨i, _⟩ => i)
termination_by sizeOf instrs
decreasing_by
  exact sizeOf_lt_of_loop_mem
    (coalesce_loop_mem mergeIncrements_not_loop (List.mem_of_mem_filter (by assumption)))

/-- The merging closure of `combine_ptr_increments`. -/
def mergePtrIncrements (prev_instr instr : Instruction) : Option Instruction :=
  match prev_instr, instr with
  | .pointerIncrement prev_amount, .pointerIncrement amount =>
    some (.pointerIncrement (amount + prev_amount))
  | _, _ => none

/-- The filtering closure of `combine_ptr_increments`. -/
def keepNonzeroPtrIncrement (instr : Instruction) : Bool :=
  match instr with
  | .pointerIncrement amount => if amount = 0 then false else true
  | _ => true

lemma mergePtrIncrements_not_loop (a b c : Instruction)
    (h : mergePtrIncrements a b = some c) :
    c = a ∨ ∀ body, c ≠ Instruction.loop body := by
  cases a <;> cases b <;> simp [mergePtrIncrements] at h <;> subst h <;>
    exact Or.inr (by simp)

/-- `combine_ptr_increments` from `src/optimize.rs`. -/
def combine_ptr_increments (instrs : List Instruction) : List Instruction :=
  ((coalesce mergePtrIncrements instrs).filter keepNonzeroPtrIncrement).attach.map
    (fun x =>
      match x with
      | ⟨.loop body, _⟩ => .loop (combine_ptr_increments body)
      | ⟨i, _⟩ => i)
termination_by sizeOf instrs
decreasing_by
  exact sizeOf_lt_of_loop_mem
    (coalesce_loop_mem mergePtrIncrements_not_loop (List.mem_of_mem_filter (by assumption)))

/-- The first mapping closure of `simplify_loops`: a loop whose body is
exactly `[Increment(-1)]` becomes `Set(0)`. -/
def zeroLoopToSet (instr : Instruction) : Instruction :=
  match instr with
  | .loop [.increment a] =>
    if a = -1 then .set 0 else .loop [.increment a]
  | i => i

lemma zeroLoopToSet_loop (y : Instruction) (body : List Instruction)
    (h : zeroLoopToSet y = Instruction.loop body) : y = Instruction.loop body := by
  match y with
  | .loop [.increment a] =>
    rw [zeroLoopToSet] at h
    split at h
    · cases h
    · exact h
  | .loop [] => exact h
  | .loop (.loop b :: r) => exact h
  | .loop (.pointerIncrement p :: r) => exact h
  | .loop (.read :: r) => exact h
  | .loop (.write :: r) => exact h
  | .loop (.set a :: r) => exact h
  | .loop (.increment a :: b :: r) => exact h
  | .increment a => exact h
  | .pointerIncrement a => exact h
  | .read => exact h
  | .write => exact h
  | .set a => exact h

/-- `simplify_loops` from `src/optimize.rs`: rewrite `[-]` loops to
`Set(0)`, then simplify zeroing loops nested in other loops. -/
def simplify_loops (instrs : List Instruction) : List Instruction :=
  (instrs.map zeroLoopToSet).attach.map
    (fun x =>
      match x with
      | ⟨.loop body, _⟩ => .loop (simplify_loops body)
      | ⟨i, _⟩ => i)
termination_by sizeOf instrs
decreasing_by
  rename_i hmem
  obtain ⟨y, hy, hyeq⟩ := List.mem_map.mp hmem
  exact sizeOf_lt_of_loop_mem (zeroLoopToSet_loop y _ hyeq ▸ hy)

/-- The merging closure of `remove_dead_loops`: a loop preceded by
`Set(0)` is dropped. -/
def mergeDeadLoops (prev_instr instr : Instruction) : Option Instruction :=
  match prev_instr, instr with
  | .set amount, .loop _ =>
    if amount = 0 then some (.set amount) else none
  | _, _ => none

lemma mergeDeadLoops_not_loop (a b c : Instruction)
    (h : mergeDeadLoops a b = some c) :
    c = a ∨ ∀ body, c ≠ Instruction.loop body := by
  cases a <;> cases b <;> simp [mergeDeadLoops] at h
  obtain ⟨-, rfl⟩ := h
  exact Or.inr (by simp)

/-- `remove_dead_loops` from `src/optimize.rs`. -/
def remove_dead_loops (instrs : List Instruction) : List Instruction :=
  (coalesce mergeDeadLoops instrs).attach.map
    (fun x =>
      match x with
      | ⟨.loop body, _⟩ => .loop (remove_dead_loops body)
      | ⟨i, _⟩ => i)
termination_by sizeOf instrs
decreasing_by
  exact sizeOf_lt_of_loop_mem
    (coalesce_loop_mem mergeDeadLoops_not_loop (by assumption))

/-- First merging closure of `combine_set_and_increments`: the later of
two adjacent sets wins. -/
def mergeSetAndSet (prev_instr instr : Instruction) : Option Instruction :=
  match prev_instr, instr with
  | .set _, .set amount => some (.set amount)
  | _, _ => none

/-- Second merging closure: fold an increment into a preceding set. -/
def mergeSetAndIncrement (prev_instr instr : Instruction) : Option Instruction :=
  match prev_instr, instr with
  | .set set_amount, .increment inc_amount =>
    some (.set (set_amount + inc_amount))
  | _, _ => none

/-- Third merging closure: a set overwrites a preceding increment. -/
def mergeIncrementAndSet (prev_instr instr : Instruction) : Option Instruction :=
  match prev_instr, instr with
  | .increment _, .set amount => some (.set amount)
  | _, _ => none

lemma mergeSetAndSet_not_loop (a b c : Instruction)
    (h : mergeSetAndSet a b = some c) :
    c = a ∨ ∀ body, c ≠ Instruction.loop body := by
  cases a <;> cases b <;> simp [mergeSetAndSet] at h <;> subst h <;>
    exact Or.inr (by simp)

lemma mergeSetAndIncrement_not_loop (a b c : Instruction)
    (h : mergeSetAndIncrement a b = some c) :
    c = a ∨ ∀ body, c ≠ Instruction.loop body := by
  cases a <;> cases b <;> simp [mergeSetAndIncrement] at h <;> subst h <;>
    exact Or.inr (by simp)

lemma mergeIncrementAndSet_not_loop (a b c : Instruction)
    (h : mergeIncrementAndSet a b = some c) :
    c = a ∨ ∀ body, c ≠ Instruction.loop body := by
  cases a <;> cases b <;> simp [mergeIncrementAndSet] at h <;> subst h <;>
    exact Or.inr (by simp)

/-- `combine_set_and_increments` from `src/optimize.rs`: three chained
coalesces, then recurse into loop bodies. -/
def combine_set_and_increments (instrs : List Instruction) : List Instruction :=
  (coalesce mergeIncrementAndSet
      (coalesce mergeSetAndIncrement
        (coalesce mergeSetAndSet instrs))).attach.map
    (fun x =>
      match x with
      | ⟨.loop body, _⟩ => .loop (combine_set_and_increments body)
      | ⟨i, _⟩ => i)
termination_by sizeOf instrs
decreasing_by
  exact sizeOf_lt_of_loop_mem
    (coalesce_loop_mem mergeSetAndSet_not_loop
      (coalesce_loop_mem mergeSetAndIncrement_not_loop
        (coalesce_loop_mem mergeIncrementAndSet_not_loop (by assumption))))

/-- The merging closure of `remove_redundant_sets`: a `Set(0)` directly
after a loop is dropped. -/
def mergeRedundantSets (prev_instr instr : Instruction) : Option Instruction :=
  match prev_instr, instr with
  | .loop body, .set amount =>
    if amount = 0 then some (.loop body) else none
  | _, _ => none

lemma mergeRedundantSets_eq (a b c : Instruction)
    (h : mergeRedundantSets a b = some c) : c = a := by
  cases a <;> cases b <;> simp [mergeRedundantSets] at h
  exact h.2.symm

/-- `remove_redundant_sets` from `src/optimize.rs`. -/
def remove_redundant_sets (instrs : List Instruction) : List Instruction :=
  (coalesce mergeRedundantSets instrs).attach.map
    (fun x =>
      match x with
      | ⟨.loop body, _⟩ => .loop (remove_redundant_sets body)
      | ⟨i, _⟩ => i)
termination_by sizeOf instrs
decreasing_by
  exact sizeOf_lt_of_loop_mem
    (coalesce_loop_mem (fun a b c h => Or.inl (mergeRedundantSets_eq a b c h))
      (by assumption))

/-- Apply a pass to the body of a `Loop`, leaving other instructions
unchanged (the final `.map` step shared by every pass). -/
def onLoop (g : List Instruction → List Instruction) : Instruction → Instruction
  | .loop body => .loop (g body)
  | i => i

/-- `optimize` from `src/optimize.rs`: the fixed pass pipeline. -/
def optimize (instrs : List Instruction) : List Instruction :=
  let combined := combine_ptr_increments (combine_increments instrs)
  let simplified :=
    remove_dead_loops (combine_set_and_increments (simplify_loops combined))
  remove_redundant_sets simplified

end rust_src

namespace rust_src

lemma attach_map_eq {α β : Type} (l : List α) (F : {x // x ∈ l} → β)
    (G : α → β) (h : ∀ a ha, F ⟨a, ha⟩ = G a) : l.attach.map F = l.map G := by
  have h2 : l.attach.map F = l.attach.map (fun x => G x.val) :=
    List.map_congr_left (fun x _ => by rcases x with ⟨a, ha⟩; exact h a ha)
  rw [h2]
  exact List.attach_map_coe l G

lemma combine_increments_def (instrs : List Instruction) :
    combine_increments instrs =
      ((coalesce mergeIncrements instrs).filter keepNonzeroIncrement).map
        (onLoop combine_increments) := by
  rw [combine_increments]
  refine attach_map_eq _ _ _ ?_
  intro a ha
  cases a <;> rfl

lemma combine_ptr_increments_def (instrs : List Instruction) :
    combine_ptr_increments instrs =
      ((coalesce mergePtrIncrements instrs).filter keepNonzeroPtrIncrement).map
        (onLoop combine_ptr_increments) := by
  rw [combine_ptr_increments]
  refine attach_map_eq _ _ _ ?_
  intro a ha
  cases a <;> rfl

lemma simplify_loops_def (instrs : List Instruction) :
    simplify_loops instrs =
      (instrs.map zeroLoopToSet).map (onLoop simplify_loops) := by
  rw [simplify_loops]
  refine attach_map_eq _ _ _ ?_
  intro a ha
  cases a <;> rfl

lemma remove_dead_loops_def (instrs : List Instruction) :
    remove_dead_loops instrs =
      (coalesce mergeDeadLoops instrs).map (onLoop remove_dead_loops) := by
  rw [remove_dead_loops]
  refine attach_map_eq _ _ _ ?_
  intro a ha
  cases a <;> rfl

lemma combine_set_and_increments_def (instrs : List Instruction) :
    combine_set_and_increments instrs =
      (coalesce mergeIncrementAndSet
        (coalesce mergeSetAndIncrement
          (coalesce mergeSetAndSet instrs))).map
        (onLoop combine_set_and_increments) := by
  rw [combine_set_and_increments]
  refine attach_map_eq _ _ _ ?_
  intro a ha
  cases a <;> rfl

lemma remove_redundant_sets_def (instrs : List Instruction) :
    remove_redundant_sets instrs =
      (coalesce mergeRedundantSets instrs).map (onLoop remove_redundant_sets) := by
  rw [remove_redundant_sets]
  refine attach_map_eq _ _ _ ?_
  intro a ha
  cases a <;> rfl

/-- A coalesce step from an accumulator that never merges emits the
accumulator. -/
lemma coalesceGo_none {α : Type} {f : α → α → Option α} {acc : α}
    (h : ∀ y, f acc y = none) :
    ∀ ys, coalesceGo f acc ys = acc :: coalesce f ys := by
  intro ys
  cases ys with
  | nil => rfl
  | cons y ys => simp [coalesceGo, coalesce, h y]

lemma remove_dead_loops_nil : remove_dead_loops [] = [] := by
  rw [remove_dead_loops_def]
  rfl

lemma remove_dead_loops_loop_cons (b rest : List Instruction) :
    remove_dead_loops (Instruction.loop b :: rest) =
      Instruction.loop (remove_dead_loops b) :: remove_dead_loops rest := by
  rw [remove_dead_loops_def (Instruction.loop b :: rest),
    show coalesce mergeDeadLoops (Instruction.loop b :: rest) =
        Instruction.loop b :: coalesce mergeDeadLoops rest from
      coalesceGo_none (fun y => by cases y <;> rfl) rest,
    List.map_cons, ← remove_dead_loops_def rest]
  rfl

lemma remove_dead_loops_set_zero_loop (b rest : List Instruction) :
    remove_dead_loops (Instruction.set 0 :: Instruction.loop b :: rest) =
      remove_dead_loops (Instruction.set 0 :: rest) := by
  rw [remove_dead_loops_def, remove_dead_loops_def]
  rfl

end rust_src

namespace rust_src

/-- C5 counterexample: the claim says a `Loop` at position 0 of the
top-level program is removed, but `remove_dead_loops [Loop []]` keeps
the loop: the pass only looks for an adjacent preceding `Set(0)`. -/
theorem remove_dead_loops_leading_cex :
    remove_dead_loops [Instruction.loop []] = [Instruction.loop []] ∧
    remove_dead_loops [Instruction.loop []] ≠ [] := by
  have h : remove_dead_loops [Instruction.loop []] = [Instruction.loop []] := by
    rw [remove_dead_loops_loop_cons, remove_dead_loops_nil]
  exact ⟨h, by rw [h]; simp⟩

/-- C5 (amended): `remove_dead_loops` drops any `Loop` immediately
preceded by `Set(0)` (recursing into surviving loop bodies), but it
does not use the program-start zero-tape fact: a `Loop` at position 0
of the program survives, only its body being rewritten. -/
theorem remove_dead_loops_adjacent :
    (∀ b rest, remove_dead_loops
        (Instruction.set 0 :: Instruction.loop b :: rest) =
        remove_dead_loops (Instruction.set 0 :: rest)) ∧
    (∀ b rest, remove_dead_loops (Instruction.loop b :: rest) =
        Instruction.loop (remove_dead_loops b) :: remove_dead_loops rest) :=
  ⟨remove_dead_loops_set_zero_loop, remove_dead_loops_loop_cons⟩

/-- The wrapping (mod-256) sum of the leading run of adjacent
`Increment` amounts. -/
def incRunSum : List Instruction → Cell
  | .increment a :: rest => a + incRunSum rest
  | _ => 0

/-- Drop the leading run of adjacent `Increment` instructions. -/
def dropIncRun : List Instruction → List Instruction
  | .increment _ :: rest => dropIncRun rest
  | l => l

lemma sizeOf_dropIncRun_le : ∀ l : List Instruction, sizeOf (dropIncRun l) ≤ sizeOf l := by
  intro l
  induction l with
  | nil => simp [dropIncRun]
  | cons hd tl ih =>
    cases hd with
    | increment a =>
      rw [dropIncRun]
      have : sizeOf tl ≤ sizeOf (Instruction.increment a :: tl) := by
        simp only [List.cons.sizeOf_spec]
        omega
      omega
    | _ => simp [dropIncRun]

/-- `combine_increments` as the claim states it: fold each run of
adjacent `Increment`s into one whose amount is the wrapping (mod-256)
sum of the run's amounts, drop the result when that sum is zero,
copy non-`Increment` instructions unchanged (they act as barriers) and
recurse into loop bodies. -/
def combineIncrementsSpec : List Instruction → List Instruction
  | [] => []
  | .increment a :: rest =>
    if a + incRunSum rest = 0 then combineIncrementsSpec (dropIncRun rest)
    else .increment (a + incRunSum rest) :: combineIncrementsSpec (dropIncRun rest)
  | .loop b :: rest =>
    .loop (combineIncrementsSpec b) :: combineIncrementsSpec rest
  | i :: rest => i :: combineIncrementsSpec rest
termination_by l => sizeOf l
decreasing_by
  all_goals simp_wf
  all_goals try omega
  all_goals have := sizeOf_dropIncRun_le rest
  all_goals omega

end rust_src

namespace rust_src

lemma coalesceGo_increments :
    ∀ (rest : List Instruction) (a : Cell),
    coalesceGo mergeIncrements (Instruction.increment a) rest =
      Instruction.increment (a + incRunSum rest) ::
        coalesce mergeIncrements (dropIncRun rest) := by
  intro rest
  induction rest with
  | nil => intro a; simp [coalesceGo, coalesce, incRunSum, dropIncRun]
  | cons y rest ih =>
    intro a
    cases y with
    | increment x =>
      rw [show coalesceGo mergeIncrements (Instruction.increment a)
            (Instruction.increment x :: rest) =
          coalesceGo mergeIncrements (Instruction.increment (x + a)) rest from rfl]
      rw [ih (x + a)]
      rw [show incRunSum (Instruction.increment x :: rest) =
          x + incRunSum rest from rfl]
      rw [show dropIncRun (Instruction.increment x :: rest) =
          dropIncRun rest from rfl]
      congr 2
      ring
    | loop b => simp [coalesceGo, coalesce, incRunSum, dropIncRun, mergeIncrements]
    | pointerIncrement p =>
      simp [coalesceGo, coalesce, incRunSum, dropIncRun, mergeIncrements]
    | read => simp [coalesceGo, coalesce, incRunSum, dropIncRun, mergeIncrements]
    | write => simp [coalesceGo, coalesce, incRunSum, dropIncRun, mergeIncrements]
    | set s => simp [coalesceGo, coalesce, incRunSum, dropIncRun, mergeIncrements]

theorem combine_increments_spec_aux (l : List Instruction) :
    combine_increments l = combineIncrementsSpec l := by
  match l with
  | [] => rw [combine_increments_def, combineIncrementsSpec]; rfl
  | .increment a :: rest =>
    rw [combine_increments_def,
      show coalesce mergeIncrements (Instruction.increment a :: rest) =
          Instruction.increment (a + incRunSum rest) ::
            coalesce mergeIncrements (dropIncRun rest) from
        coalesceGo_increments rest a]
    by_cases hT : a + incRunSum rest = 0
    · rw [combineIncrementsSpec, if_pos hT, List.filter_cons,
        show keepNonzeroIncrement (Instruction.increment (a + incRunSum rest)) =
          false from by simp [keepNonzeroIncrement, hT]]
      simp only [Bool.false_eq_true, if_false]
      rw [← combine_increments_def]
      exact combine_increments_spec_aux (dropIncRun rest)
    · rw [combineIncrementsSpec, if_neg hT, List.filter_cons,
        show keepNonzeroIncrement (Instruction.increment (a + incRunSum rest)) =
          true from by simp [keepNonzeroIncrement, hT]]
      simp only [if_true]
      rw [List.map_cons,
        show onLoop combine_increments (Instruction.increment (a + incRunSum rest)) =
          Instruction.increment (a + incRunSum rest) from rfl,
        ← combine_increments_def,
        combine_increments_spec_aux (dropIncRun rest)]
  | .loop b :: rest =>
    rw [combine_increments_def,
      show coalesce mergeIncrements (Instruction.loop b :: rest) =
          Instruction.loop b :: coalesce mergeIncrements rest from
        coalesceGo_none (fun y => by cases y <;> rfl) rest,
      List.filter_cons,
      show keepNonzeroIncrement (Instruction.loop b) = true from rfl]
    simp only [if_true]
    rw [List.map_cons,
      show onLoop combine_increments (Instruction.loop b) =
        Instruction.loop (combine_increments b) from rfl,
      ← combine_increments_def, combineIncrementsSpec,
      combine_increments_spec_aux b, combine_increments_spec_aux rest]
  | .pointerIncrement p :: rest =>
    rw [combine_increments_def,
      show coalesce mergeIncrements (Instruction.pointerIncrement p :: rest) =
          Instruction.pointerIncrement p :: coalesce mergeIncrements rest from
        coalesceGo_none (fun y => by cases y <;> rfl) rest,
      List.filter_cons,
      show keepNonzeroIncrement (Instruction.pointerIncrement p) = true from rfl]
    simp only [if_true]
    rw [List.map_cons,
      show onLoop combine_increments (Instruction.pointerIncrement p) =
        Instruction.pointerIncrement p from rfl,
      ← combine_increments_def, combineIncrementsSpec,
      combine_increments_spec_aux rest]
    all_goals simp
  | .read :: rest =>
    rw [combine_increments_def,
      show coalesce mergeIncrements (Instruction.read :: rest) =
          Instruction.read :: coalesce mergeIncrements rest from
        coalesceGo_none (fun y => by cases y <;> rfl) rest,
      List.filter_cons,
      show keepNonzeroIncrement Instruction.read = true from rfl]
    simp only [if_true]
    rw [List.map_cons,
      show onLoop combine_increments Instruction.read = Instruction.read from rfl,
      ← combine_increments_def, combineIncrementsSpec,
      combine_increments_spec_aux rest]
    all_goals simp
  | .write :: rest =>
    rw [combine_increments_def,
      show coalesce mergeIncrements (Instruction.write :: rest) =
          Instruction.write :: coalesce mergeIncrements rest from
        coalesceGo_none (fun y => by cases y <;> rfl) rest,
      List.filter_cons,
      show keepNonzeroIncrement Instruction.write = true from rfl]
    simp only [if_true]
    rw [List.map_cons,
      show onLoop combine_increments Instruction.write = Instruction.write from rfl,
      ← combine_increments_def, combineIncrementsSpec,
      combine_increments_spec_aux rest]
    all_goals simp
  | .set s :: rest =>
    rw [combine_increments_def,
      show coalesce mergeIncrements (Instruction.set s :: rest) =
          Instruction.set s :: coalesce mergeIncrements rest from
        coalesceGo_none (fun y => by cases y <;> rfl) rest,
      List.filter_cons,
      show keepNonzeroIncrement (Instruction.set s) = true from rfl]
    simp only [if_true]
    rw [List.map_cons,
      show onLoop combine_increments (Instruction.set s) =
        Instruction.set s from rfl,
      ← combine_increments_def, combineIncrementsSpec,
      combine_increments_spec_aux rest]
    all_goals simp
termination_by sizeOf l
decreasing_by
  all_goals simp_wf
  all_goals try omega
  all_goals have := sizeOf_dropIncRun_le rest
  all_goals omega

end rust_src

namespace rust_src

/-- C4: `combine_increments` folds every run of adjacent `Increment`
instructions into a single `Increment` whose amount is the wrapping
8-bit (mod-256, `ZMod 256`) sum of the run's amounts, then drops any
`Increment` whose amount is zero; non-`Increment` instructions act as
barriers and are copied unchanged, and the pass recurses into loop
bodies.  (In this IR revision `Increment` carries no offset field:
every increment targets the current cell, so adjacent increments
always have identical — implicitly zero — offsets.) -/
theorem combine_increments_eq_spec (l : List Instruction) :
    combine_increments l = combineIncrementsSpec l :=
  combine_increments_spec_aux l

/-- The non-`Increment` skeleton of a program: drop every `Increment`,
keep everything else in order, recursing into loop bodies. -/
def skel : List Instruction → List Instruction
  | [] => []
  | .increment _ :: rest => skel rest
  | .loop b :: rest => .loop (skel b) :: skel rest
  | i :: rest => i :: skel rest
termination_by l => sizeOf l
decreasing_by
  all_goals simp_wf
  all_goals omega

lemma skel_dropIncRun : ∀ l, skel (dropIncRun l) = skel l := by
  intro l
  induction l with
  | nil => rfl
  | cons hd tl ih =>
    cases hd with
    | increment a =>
      rw [dropIncRun, ih, skel]
    | loop b => simp [dropIncRun]
    | pointerIncrement p => simp [dropIncRun]
    | read => simp [dropIncRun]
    | write => simp [dropIncRun]
    | set s => simp [dropIncRun]

theorem skel_spec_aux (l : List Instruction) :
    skel (combineIncrementsSpec l) = skel l := by
  match l with
  | [] => rw [combineIncrementsSpec]
  | .increment a :: rest =>
    rw [combineIncrementsSpec]
    by_cases hT : a + incRunSum rest = 0
    · rw [if_pos hT, skel_spec_aux (dropIncRun rest), skel_dropIncRun, skel]
    · rw [if_neg hT, skel, skel_spec_aux (dropIncRun rest), skel_dropIncRun, skel]
  | .loop b :: rest =>
    rw [combineIncrementsSpec, skel, skel_spec_aux b, skel_spec_aux rest, skel]
  | .pointerIncrement p :: rest =>
    rw [combineIncrementsSpec]
    all_goals try simp
    rw [skel, skel_spec_aux rest, skel]
    all_goals simp
  | .read :: rest =>
    rw [combineIncrementsSpec]
    all_goals try simp
    rw [skel, skel_spec_aux rest, skel]
    all_goals simp
  | .write :: rest =>
    rw [combineIncrementsSpec]
    all_goals try simp
    rw [skel, skel_spec_aux rest, skel]
    all_goals simp
  | .set s :: rest =>
    rw [combineIncrementsSpec]
    all_goals try simp
    rw [skel, skel_spec_aux rest, skel]
    all_goals simp
termination_by sizeOf l
decreasing_by
  all_goals simp_wf
  all_goals try omega
  all_goals have := sizeOf_dropIncRun_le rest
  all_goals omega

/-- C10: `combine_increments` leaves every non-`Increment` instruction
unchanged and in its original relative order and preserves the number
and nesting structure of `Loop`s (only bodies are rewritten): the
non-`Increment` skeleton is invariant.  In particular a `Loop` whose
body coalesces away entirely survives as `Loop []`. -/
theorem combine_increments_frame :
    (∀ l, skel (combine_increments l) = skel l) ∧
    combine_increments [Instruction.loop
        [Instruction.increment 1, Instruction.increment (-1)]] =
      [Instruction.loop []] := by
  have h1 : combineIncrementsSpec [] = [] := by
    rw [combineIncrementsSpec]
  constructor
  · intro l
    rw [combine_increments_spec_aux l]
    exact skel_spec_aux l
  · have hsum : (1 : Cell) + incRunSum [Instruction.increment (-1)] = 0 := by
      have hz : incRunSum ([] : List Instruction) = 0 := rfl
      rw [incRunSum, hz]
      ring
    have h2 : combineIncrementsSpec
        [Instruction.increment 1, Instruction.increment (-1)] = [] := by
      rw [combineIncrementsSpec, if_pos hsum,
        show dropIncRun [Instruction.increment (-1)] = [] from rfl, h1]
    rw [combine_increments_spec_aux, combineIncrementsSpec, h2, h1]

end rust_src

namespace rust_src

/-- The pair `(x, y)` of adjacent instructions is not a dead-loop
pattern: `y` is not a `Loop` directly preceded by `Set(0)`. -/
def okPair (x y : Instruction) : Prop :=
  x = Instruction.set 0 → ∀ b, y ≠ Instruction.loop b

/-- No adjacent `(Set 0, Loop)` pair at the top level of the block. -/
def topOk : List Instruction → Prop
  | [] => True
  | x :: rest => (∀ y, rest.head? = some y → okPair x y) ∧ topOk rest

mutual
/-- No adjacent `(Set 0, Loop)` pair inside the instruction (i.e. in a
loop body, at any depth). -/
def noDeadI : Instruction → Prop
  | .loop b => noDead b
  | _ => True

/-- No adjacent `(Set 0, Loop)` pair at any nesting level. -/
def noDead : List Instruction → Prop
  | [] => True
  | x :: rest =>
    noDeadI x ∧ (∀ y, rest.head? = some y → okPair x y) ∧ noDead rest
end

lemma noDead_topOk : ∀ l, noDead l → topOk l := by
  intro l
  induction l with
  | nil => intro _; trivial
  | cons x rest ih =>
    intro h
    exact ⟨h.2.1, ih h.2.2⟩

lemma noDead_elements : ∀ l, noDead l → ∀ i ∈ l, noDeadI i := by
  intro l
  induction l with
  | nil => intro _ i hi; cases hi
  | cons x rest ih =>
    intro h i hi
    rcases List.mem_cons.mp hi with rfl | hi
    · exact h.1
    · exact ih h.2.2 i hi

lemma noDead_of_topOk_elements : ∀ l, topOk l → (∀ i ∈ l, noDeadI i) → noDead l := by
  intro l
  induction l with
  | nil => intro _ _; trivial
  | cons x rest ih =>
    intro ht he
    exact ⟨he x (List.mem_cons_self _ _), ht.1,
      ih ht.2 (fun i hi => he i (List.mem_cons_of_mem _ hi))⟩

/-- When merging always returns the accumulator, the head of the
coalesced output is the accumulator. -/
lemma coalesceGo_head {f : Instruction → Instruction → Option Instruction}
    (hacc : ∀ a b c, f a b = some c → c = a) :
    ∀ (ys : List Instruction) (acc : Instruction),
    (coalesceGo f acc ys).head? = some acc := by
  intro ys
  induction ys with
  | nil => intro acc; rfl
  | cons y ys ih =>
    intro acc
    cases hm : f acc y with
    | some m =>
      simp only [coalesceGo, hm]
      rw [ih m, hacc acc y m hm]
    | none => simp only [coalesceGo, hm, List.head?_cons]

lemma mergeDeadLoops_acc (a b c : Instruction)
    (h : mergeDeadLoops a b = some c) : c = a := by
  cases a <;> cases b <;> simp [mergeDeadLoops] at h
  exact h.2.symm

/-- When merging always returns the accumulator, coalescing only
deletes elements: every output element is an input element. -/
lemma coalesceGo_mem {f : Instruction → Instruction → Option Instruction}
    (hacc : ∀ a b c, f a b = some c → c = a) :
    ∀ (ys : List Instruction) (acc : Instruction) (x : Instruction),
    x ∈ coalesceGo f acc ys → x = acc ∨ x ∈ ys := by
  intro ys
  induction ys with
  | nil => intro acc x h; exact Or.inl (by simpa [coalesceGo] using h)
  | cons y ys ih =>
    intro acc x h
    cases hm : f acc y with
    | some m =>
      simp only [coalesceGo, hm] at h
      rcases ih m x h with hx | hx
      · exact Or.inl (hx.trans (hacc acc y m hm))
      · exact Or.inr (List.mem_cons_of_mem _ hx)
    | none =>
      simp only [coalesceGo, hm] at h
      rcases List.mem_cons.mp h with hx | hx
      · exact Or.inl hx
      · rcases ih y x hx with hy | hy
        · exact Or.inr (hy ▸ List.mem_cons_self _ _)
        · exact Or.inr (List.mem_cons_of_mem _ hy)

lemma coalesce_mem {f : Instruction → Instruction → Option Instruction}
    (hacc : ∀ a b c, f a b = some c → c = a)
    {l : List Instruction} {x : Instruction} (h : x ∈ coalesce f l) : x ∈ l := by
  match l with
  | [] => cases h
  | a :: xs =>
    rcases coalesceGo_mem hacc xs a x h with hx | hx
    · exact hx ▸ List.mem_cons_self _ _
    · exact List.mem_cons_of_mem _ hx

/-- The coalescing step of `remove_dead_loops` leaves no adjacent
`(Set 0, Loop)` pair. -/
lemma rdl_go_topOk :
    ∀ (ys : List Instruction) (acc : Instruction),
    topOk (coalesceGo mergeDeadLoops acc ys) := by
  intro ys
  induction ys with
  | nil => intro acc; exact ⟨by simp, trivial⟩
  | cons y ys ih =>
    intro acc
    cases hm : mergeDeadLoops acc y with
    | some m =>
      simp only [coalesceGo, hm]
      exact ih m
    | none =>
      simp only [coalesceGo, hm]
      refine ⟨?_, ih y⟩
      intro z hz
      rw [coalesceGo_head mergeDeadLoops_acc ys y] at hz
      obtain rfl : y = z := by simpa using hz
      intro hacc b hy
      subst hacc
      subst hy
      simp [mergeDeadLoops] at hm

/-- The coalescing step of `remove_redundant_sets` preserves the
absence of adjacent `(Set 0, Loop)` pairs. -/
lemma rrs_go_topOk :
    ∀ (ys : List Instruction) (acc : Instruction),
    topOk (acc :: ys) → topOk (coalesceGo mergeRedundantSets acc ys) := by
  intro ys
  induction ys with
  | nil => intro acc _; exact ⟨by simp, trivial⟩
  | cons y ys ih =>
    intro acc h
    cases hm : mergeRedundantSets acc y with
    | some m =>
      simp only [coalesceGo, hm]
      obtain rfl : m = acc := mergeRedundantSets_eq acc y m hm
      have hloop : ∃ body, m = Instruction.loop body := by
        cases m <;> cases y <;> simp [mergeRedundantSets] at hm
        exact ⟨_, rfl⟩
      refine ih m ⟨?_, h.2.2⟩
      intro z hz hset
      obtain ⟨body, rfl⟩ := hloop
      simp at hset
    | none =>
      simp only [coalesceGo, hm]
      refine ⟨?_, ih y h.2⟩
      intro z hz
      rw [coalesceGo_head mergeRedundantSets_eq ys y] at hz
      obtain rfl : y = z := by simpa using hz
      exact h.1 y (by simp)

lemma okPair_onLoop (g : List Instruction → List Instruction)
    {x y : Instruction} (h : okPair x y) : okPair (onLoop g x) (onLoop g y) := by
  cases x <;> cases y <;> simp_all [okPair, onLoop]

lemma topOk_map_onLoop (g : List Instruction → List Instruction) :
    ∀ l, topOk l → topOk (l.map (onLoop g)) := by
  intro l
  induction l with
  | nil => intro _; trivial
  | cons x rest ih =>
    intro h
    refine ⟨?_, ih h.2⟩
    intro y hy
    rw [List.head?_map] at hy
    cases hrest : rest.head? with
    | none => rw [hrest] at hy; cases hy
    | some y0 =>
      rw [hrest] at hy
      obtain rfl : onLoop g y0 = y := by simpa using hy
      exact okPair_onLoop g (h.1 y0 hrest)

end rust_src

namespace rust_src

theorem noDead_remove_dead_loops (l : List Instruction) :
    noDead (remove_dead_loops l) := by
  rw [remove_dead_loops_def]
  refine noDead_of_topOk_elements _ ?_ ?_
  · refine topOk_map_onLoop _ _ ?_
    match l with
    | [] => trivial
    | x :: xs => exact rdl_go_topOk xs x
  · intro j hj
    obtain ⟨i, hi, rfl⟩ := List.mem_map.mp hj
    cases i with
    | loop b =>
      have hb : sizeOf b < sizeOf l :=
        sizeOf_lt_of_loop_mem (coalesce_loop_mem mergeDeadLoops_not_loop hi)
      rw [show onLoop remove_dead_loops (Instruction.loop b) =
        Instruction.loop (remove_dead_loops b) from rfl, noDeadI]
      exact noDead_remove_dead_loops b
    | increment a => simp [onLoop, noDeadI]
    | pointerIncrement a => simp [onLoop, noDeadI]
    | read => simp [onLoop, noDeadI]
    | write => simp [onLoop, noDeadI]
    | set a => simp [onLoop, noDeadI]
termination_by sizeOf l
decreasing_by exact hb

theorem noDead_remove_redundant_sets (l : List Instruction) (h : noDead l) :
    noDead (remove_redundant_sets l) := by
  rw [remove_redundant_sets_def]
  refine noDead_of_topOk_elements _ ?_ ?_
  · refine topOk_map_onLoop _ _ ?_
    match l, h with
    | [], _ => trivial
    | x :: xs, h => exact rrs_go_topOk xs x (noDead_topOk _ h)
  · intro j hj
    obtain ⟨i, hi, rfl⟩ := List.mem_map.mp hj
    have hmem : i ∈ l := coalesce_mem mergeRedundantSets_eq hi
    have hIi : noDeadI i := noDead_elements l h i hmem
    cases i with
    | loop b =>
      have hb : sizeOf b < sizeOf l := sizeOf_lt_of_loop_mem hmem
      rw [noDeadI] at hIi
      rw [show onLoop remove_redundant_sets (Instruction.loop b) =
        Instruction.loop (remove_redundant_sets b) from rfl, noDeadI]
      exact noDead_remove_redundant_sets b hIi
    | increment a => simpa [onLoop] using hIi
    | pointerIncrement a => simpa [onLoop] using hIi
    | read => simpa [onLoop] using hIi
    | write => simpa [onLoop] using hIi
    | set a => simpa [onLoop] using hIi
termination_by sizeOf l
decreasing_by exact hb

/-- C8: for every instruction sequence `p`, `optimize p` contains no
`Loop` immediately preceded by `Set(0)`, at any nesting level:
`remove_dead_loops` establishes the invariant and the final
`remove_redundant_sets` pass preserves it. -/
theorem optimize_no_dead_loops (p : List Instruction) : noDead (optimize p) :=
  noDead_remove_redundant_sets _ (noDead_remove_dead_loops _)

end rust_src

namespace rust_src

/-- The state of the reference interpreter: an unbounded zero-extended
tape of 8-bit cells, the head position, an input stream with a read
cursor, and the output emitted so far. -/
@[ext]
structure MState where
  tape : Int → Cell
  head : Int
  inp : Nat → Cell
  inPos : Nat
  out : List Cell

mutual
/-- Reference big-step interpreter for one instruction.  `fuel` bounds
the number of loop re-entries; `none` means the fuel ran out. -/
def runInstr : Nat → Instruction → MState → Option MState
  | _, .increment a, s =>
    some { s with tape := Function.update s.tape s.head (s.tape s.head + a) }
  | _, .pointerIncrement n, s => some { s with head := s.head + n }
  | _, .read, s =>
    some { s with tape := Function.update s.tape s.head (s.inp s.inPos),
                  inPos := s.inPos + 1 }
  | _, .write, s => some { s with out := s.out ++ [s.tape s.head] }
  | _, .set a, s => some { s with tape := Function.update s.tape s.head a }
  | fuel, .loop body, s =>
    if s.tape s.head = 0 then some s
    else
      match fuel with
      | 0 => none
      | fuel' + 1 =>
        match runList fuel' body s with
        | some s1 => runInstr fuel' (.loop body) s1
        | none => none
termination_by fuel i _ => (fuel, sizeOf i)

/-- Reference big-step interpreter for an instruction sequence. -/
def runList : Nat → List Instruction → MState → Option MState
  | _, [], s => some s
  | fuel, i :: rest, s =>
    match runInstr fuel i s with
    | some s1 => runList fuel rest s1
    | none => none
termination_by fuel l _ => (fuel, sizeOf l)
end

/-- `q` refines `p`: with the same fuel, any successful run of `p` is
reproduced exactly by `q`. -/
def refines (q p : List Instruction) : Prop :=
  ∀ fuel s s', runList fuel p s = some s' → runList fuel q s = some s'

/-- Single-instruction refinement. -/
def refinesI (j i : Instruction) : Prop :=
  ∀ fuel s s', runInstr fuel i s = some s' → runInstr fuel j s = some s'

lemma refines_refl (p : List Instruction) : refines p p := fun _ _ _ h => h

lemma refinesI_refl (i : Instruction) : refinesI i i := fun _ _ _ h => h

lemma refines_trans {q p r : List Instruction} (h1 : refines q p)
    (h2 : refines p r) : refines q r :=
  fun fuel s s' h => h1 fuel s s' (h2 fuel s s' h)

lemma runList_cons (fuel : Nat) (i : Instruction) (rest : List Instruction)
    (s : MState) :
    runList fuel (i :: rest) s =
      match runInstr fuel i s with
      | some s1 => runList fuel rest s1
      | none => none := by
  rw [runList]

lemma runList_append (fuel : Nat) (l1 l2 : List Instruction) (s : MState) :
    runList fuel (l1 ++ l2) s =
      match runList fuel l1 s with
      | some s1 => runList fuel l2 s1
      | none => none := by
  induction l1 generalizing s with
  | nil => rw [List.nil_append, runList]
  | cons i l1 ih =>
    rw [List.cons_append, runList_cons, runList_cons]
    cases runInstr fuel i s with
    | some s1 => exact ih s1
    | none => rfl

lemma refines_cons {j i : Instruction} {q p : List Instruction}
    (h1 : refinesI j i) (h2 : refines q p) : refines (j :: q) (i :: p) := by
  intro fuel s s' h
  rw [runList_cons] at h ⊢
  cases hri : runInstr fuel i s with
  | none => rw [hri] at h; cases h
  | some s1 =>
    rw [hri] at h
    rw [h1 fuel s s1 hri]
    exact h2 fuel s1 s' h

lemma refines_append_right {q p : List Instruction} (r : List Instruction)
    (h : refines q p) : refines (q ++ r) (p ++ r) := by
  intro fuel s s' hrun
  rw [runList_append] at hrun ⊢
  cases hp : runList fuel p s with
  | none => rw [hp] at hrun; cases hrun
  | some s1 =>
    rw [hp] at hrun
    rw [h fuel s s1 hp]
    exact hrun

lemma coalesceGo_refines {f : Instruction → Instruction → Option Instruction}
    (hf : ∀ a b c, f a b = some c → refines [c] [a, b]) :
    ∀ (ys : List Instruction) (acc : Instruction),
    refines (coalesceGo f acc ys) (acc :: ys) := by
  intro ys
  induction ys with
  | nil => intro acc; exact refines_refl _
  | cons y ys ih =>
    intro acc
    cases hm : f acc y with
    | some m =>
      rw [show coalesceGo f acc (y :: ys) = coalesceGo f m ys from by
        simp only [coalesceGo, hm]]
      refine refines_trans (ih m) ?_
      exact refines_append_right ys (hf acc y m hm)
    | none =>
      rw [show coalesceGo f acc (y :: ys) = acc :: coalesceGo f y ys from by
        simp only [coalesceGo, hm]]
      exact refines_cons (refinesI_refl acc) (ih y)

lemma coalesce_refines {f : Instruction → Instruction → Option Instruction}
    (hf : ∀ a b c, f a b = some c → refines [c] [a, b]) :
    ∀ l, refines (coalesce f l) l := by
  intro l
  match l with
  | [] => exact refines_refl _
  | x :: xs => exact coalesceGo_refines hf xs x

/-- Filtering out exact no-ops refines. -/
lemma filter_refines {keep : Instruction → Bool}
    (hk : ∀ i, keep i = false → ∀ fuel s, runInstr fuel i s = some s) :
    ∀ l, refines (l.filter keep) l := by
  intro l
  induction l with
  | nil => exact refines_refl _
  | cons i l ih =>
    cases hki : keep i with
    | true =>
      rw [List.filter_cons, hki]
      exact refines_cons (refinesI_refl i) ih
    | false =>
      rw [List.filter_cons, hki]
      intro fuel s s' h
      rw [runList_cons, hk i hki fuel s] at h
      simpa using ih fuel s s' h

lemma map_refines {G : Instruction → Instruction} :
    ∀ l, (∀ i ∈ l, refinesI (G i) i) → refines (l.map G) l := by
  intro l
  induction l with
  | nil => intro _; exact refines_refl _
  | cons i l ih =>
    intro h
    rw [List.map_cons]
    exact refines_cons (h i (List.mem_cons_self _ _))
      (ih fun j hj => h j (List.mem_cons_of_mem _ hj))

/-- Congruence: refining a loop body refines the loop. -/
lemma loop_congr {q p : List Instruction} (h : refines q p) :
    refinesI (Instruction.loop q) (Instruction.loop p) := by
  intro fuel
  induction fuel with
  | zero =>
    intro s s' hrun
    rw [runInstr] at hrun ⊢
    by_cases hc : s.tape s.head = 0
    · rw [if_pos hc] at hrun ⊢
      exact hrun
    · rw [if_neg hc] at hrun
      cases hrun
  | succ g ih =>
    intro s s' hrun
    rw [runInstr] at hrun ⊢
    by_cases hc : s.tape s.head = 0
    · rw [if_pos hc] at hrun ⊢
      exact hrun
    · rw [if_neg hc] at hrun ⊢
      cases hb : runList g p s with
      | none => rw [hb] at hrun; cases hrun
      | some s1 =>
        rw [hb] at hrun
        rw [h g s s1 hb]
        exact ih s1 s' hrun

end rust_src

namespace rust_src

lemma keepNonzeroIncrement_noop (i : Instruction)
    (hk : keepNonzeroIncrement i = false) :
    ∀ fuel s, runInstr fuel i s = some s := by
  cases i <;> simp [keepNonzeroIncrement] at hk
  subst hk
  intro fuel s
  rw [runInstr]
  simp

lemma keepNonzeroPtrIncrement_noop (i : Instruction)
    (hk : keepNonzeroPtrIncrement i = false) :
    ∀ fuel s, runInstr fuel i s = some s := by
  cases i <;> simp [keepNonzeroPtrIncrement] at hk
  subst hk
  intro fuel s
  rw [runInstr]
  simp

lemma mergeIncrements_refines (a b c : Instruction)
    (h : mergeIncrements a b = some c) : refines [c] [a, b] := by
  cases a with
  | increment x =>
    cases b with
    | increment y =>
      simp [mergeIncrements] at h
      subst h
      intro fuel s s' hrun
      simp only [runList, runInstr] at hrun ⊢
      rw [← hrun]
      congr 1
      ext : 1 <;> simp [Function.update_idem]
      ring
    | _ => simp [mergeIncrements] at h
  | _ => cases b <;> simp [mergeIncrements] at h

end rust_src

namespace rust_src

lemma mergePtrIncrements_refines (a b c : Instruction)
    (h : mergePtrIncrements a b = some c) : refines [c] [a, b] := by
  cases a with
  | pointerIncrement x =>
    cases b with
    | pointerIncrement y =>
      simp [mergePtrIncrements] at h
      subst h
      intro fuel s s' hrun
      simp only [runList, runInstr] at hrun ⊢
      rw [← hrun]
      congr 1
      ext : 1 <;> simp
      ring
    | _ => simp [mergePtrIncrements] at h
  | _ => cases b <;> simp [mergePtrIncrements] at h

lemma mergeSetAndSet_refines (a b c : Instruction)
    (h : mergeSetAndSet a b = some c) : refines [c] [a, b] := by
  cases a with
  | set x =>
    cases b with
    | set y =>
      simp [mergeSetAndSet] at h
      subst h
      intro fuel s s' hrun
      simp only [runList, runInstr] at hrun ⊢
      rw [← hrun]
      congr 1
      ext : 1 <;> simp [Function.update_idem]
    | _ => simp [mergeSetAndSet] at h
  | _ => cases b <;> simp [mergeSetAndSet] at h

lemma mergeSetAndIncrement_refines (a b c : Instruction)
    (h : mergeSetAndIncrement a b = some c) : refines [c] [a, b] := by
  cases a with
  | set x =>
    cases b with
    | increment y =>
      simp [mergeSetAndIncrement] at h
      subst h
      intro fuel s s' hrun
      simp only [runList, runInstr] at hrun ⊢
      rw [← hrun]
      congr 1
      ext : 1 <;> simp [Function.update_idem]
    | _ => simp [mergeSetAndIncrement] at h
  | _ => cases b <;> simp [mergeSetAndIncrement] at h

lemma mergeIncrementAndSet_refines (a b c : Instruction)
    (h : mergeIncrementAndSet a b = some c) : refines [c] [a, b] := by
  cases a with
  | increment x =>
    cases b with
    | set y =>
      simp [mergeIncrementAndSet] at h
      subst h
      intro fuel s s' hrun
      simp only [runList, runInstr] at hrun ⊢
      rw [← hrun]
      congr 1
      ext : 1 <;> simp [Function.update_idem]
    | _ => simp [mergeIncrementAndSet] at h
  | _ => cases b <;> simp [mergeIncrementAndSet] at h

lemma mergeDeadLoops_refines (a b c : Instruction)
    (h : mergeDeadLoops a b = some c) : refines [c] [a, b] := by
  cases a with
  | set x =>
    cases b with
    | loop body =>
      simp [mergeDeadLoops] at h
      obtain ⟨rfl, rfl⟩ := h
      intro fuel s s' hrun
      simp only [runList, runInstr] at hrun ⊢
      rw [show runInstr fuel (Instruction.loop body)
          { s with tape := Function.update s.tape s.head 0 } =
          some { s with tape := Function.update s.tape s.head 0 } from by
        rw [runInstr.eq_def]
        simp] at hrun
      exact hrun
    | _ => simp [mergeDeadLoops] at h
  | _ => cases b <;> simp [mergeDeadLoops] at h

/-- When a loop returns, the current cell is zero. -/
lemma loop_post :
    ∀ (fuel : Nat) (body : List Instruction) (s s' : MState),
    runInstr fuel (.loop body) s = some s' → s'.tape s'.head = 0 := by
  intro fuel
  induction fuel with
  | zero =>
    intro body s s' h
    rw [runInstr] at h
    by_cases hc : s.tape s.head = 0
    · rw [if_pos hc] at h
      obtain rfl : s = s' := by simpa using h
      exact hc
    · rw [if_neg hc] at h
      cases h
  | succ g ih =>
    intro body s s' h
    rw [runInstr] at h
    by_cases hc : s.tape s.head = 0
    · rw [if_pos hc] at h
      obtain rfl : s = s' := by simpa using h
      exact hc
    · rw [if_neg hc] at h
      cases hb : runList g body s with
      | none => rw [hb] at h; cases h
      | some s1 =>
        rw [hb] at h
        exact ih body s1 s' h

lemma mergeRedundantSets_refines (a b c : Instruction)
    (h : mergeRedundantSets a b = some c) : refines [c] [a, b] := by
  cases a with
  | loop body =>
    cases b with
    | set x =>
      simp [mergeRedundantSets] at h
      obtain ⟨rfl, rfl⟩ := h
      intro fuel s s' hrun
      rw [runList_cons] at hrun
      cases hl : runInstr fuel (Instruction.loop body) s with
      | none => rw [hl] at hrun; cases hrun
      | some s1 =>
        rw [hl] at hrun
        have hz : s1.tape s1.head = 0 := loop_post fuel body s s1 hl
        simp only [runList, runInstr] at hrun
        rw [runList_cons, hl]
        rw [← hrun]
        simp only [runList]
        congr 1
        ext : 1 <;> simp
        exact hz
    | _ => simp [mergeRedundantSets] at h
  | _ => cases b <;> simp [mergeRedundantSets] at h

/-- A `[-]` loop always terminates by zeroing the current cell. -/
lemma dec_loop_result :
    ∀ (fuel : Nat) (s s' : MState),
    runInstr fuel (.loop [.increment (-1)]) s = some s' →
    s' = { s with tape := Function.update s.tape s.head 0 } := by
  intro fuel
  induction fuel with
  | zero =>
    intro s s' h
    rw [runInstr] at h
    by_cases hc : s.tape s.head = 0
    · rw [if_pos hc] at h
      obtain rfl : s = s' := by simpa using h
      ext : 1 <;> simp
      exact hc
    · rw [if_neg hc] at h
      cases h
  | succ g ih =>
    intro s s' h
    rw [runInstr] at h
    by_cases hc : s.tape s.head = 0
    · rw [if_pos hc] at h
      obtain rfl : s = s' := by simpa using h
      ext : 1 <;> simp
      exact hc
    · rw [if_neg hc] at h
      simp only [runList, runInstr] at h
      have := ih _ s' h
      rw [this]
      ext : 1 <;> simp [Function.update_idem]

/-- Rewriting a `[-]` loop to `Set(0)` is a refinement. -/
lemma zeroLoopToSet_refinesI (i : Instruction) :
    refinesI (zeroLoopToSet i) i := by
  match i with
  | .loop [.increment a] =>
    rw [zeroLoopToSet]
    by_cases ha : a = -1
    · rw [if_pos ha]
      subst ha
      intro fuel s s' hrun
      rw [dec_loop_result fuel s s' hrun, runInstr]
    · rw [if_neg ha]
      exact refinesI_refl _
  | .loop [] => exact refinesI_refl _
  | .loop (.loop b :: r) => exact refinesI_refl _
  | .loop (.pointerIncrement p :: r) => exact refinesI_refl _
  | .loop (.read :: r) => exact refinesI_refl _
  | .loop (.write :: r) => exact refinesI_refl _
  | .loop (.set a :: r) => exact refinesI_refl _
  | .loop (.increment a :: b :: r) => exact refinesI_refl _
  | .increment a => exact refinesI_refl _
  | .pointerIncrement a => exact refinesI_refl _
  | .read => exact refinesI_refl _
  | .write => exact refinesI_refl _
  | .set a => exact refinesI_refl _

end rust_src

namespace rust_src

theorem combine_increments_refines (l : List Instruction) :
    refines (combine_increments l) l := by
  rw [combine_increments_def]
  have hco : refines (coalesce mergeIncrements l) l :=
    coalesce_refines mergeIncrements_refines l
  have hfilter : refines
      ((coalesce mergeIncrements l).filter keepNonzeroIncrement)
      (coalesce mergeIncrements l) :=
    filter_refines keepNonzeroIncrement_noop _
  refine refines_trans ?hmap (refines_trans hfilter hco)
  case hmap =>
    refine map_refines _ ?_
    intro i hi
    cases i with
    | loop b =>
      have hb : sizeOf b < sizeOf l :=
        sizeOf_lt_of_loop_mem (coalesce_loop_mem mergeIncrements_not_loop
          (List.mem_of_mem_filter hi))
      exact loop_congr (combine_increments_refines b)
    | increment a => exact refinesI_refl _
    | pointerIncrement a => exact refinesI_refl _
    | read => exact refinesI_refl _
    | write => exact refinesI_refl _
    | set a => exact refinesI_refl _
termination_by sizeOf l
decreasing_by exact hb

theorem combine_ptr_increments_refines (l : List Instruction) :
    refines (combine_ptr_increments l) l := by
  rw [combine_ptr_increments_def]
  have hco : refines (coalesce mergePtrIncrements l) l :=
    coalesce_refines mergePtrIncrements_refines l
  have hfilter : refines
      ((coalesce mergePtrIncrements l).filter keepNonzeroPtrIncrement)
      (coalesce mergePtrIncrements l) :=
    filter_refines keepNonzeroPtrIncrement_noop _
  refine refines_trans ?hmap (refines_trans hfilter hco)
  case hmap =>
    refine map_refines _ ?_
    intro i hi
    cases i with
    | loop b =>
      have hb : sizeOf b < sizeOf l :=
        sizeOf_lt_of_loop_mem (coalesce_loop_mem mergePtrIncrements_not_loop
          (List.mem_of_mem_filter hi))
      exact loop_congr (combine_ptr_increments_refines b)
    | increment a => exact refinesI_refl _
    | pointerIncrement a => exact refinesI_refl _
    | read => exact refinesI_refl _
    | write => exact refinesI_refl _
    | set a => exact refinesI_refl _
termination_by sizeOf l
decreasing_by exact hb

theorem simplify_loops_refines (l : List Instruction) :
    refines (simplify_loops l) l := by
  rw [simplify_loops_def]
  have hzero : refines (l.map zeroLoopToSet) l :=
    map_refines _ (fun i _ => zeroLoopToSet_refinesI i)
  refine refines_trans ?hmap hzero
  case hmap =>
    refine map_refines _ ?_
    intro i hi
    cases i with
    | loop b =>
      have hb : sizeOf b < sizeOf l := by
        obtain ⟨y, hy, hyeq⟩ := List.mem_map.mp hi
        exact sizeOf_lt_of_loop_mem (zeroLoopToSet_loop y b hyeq ▸ hy)
      exact loop_congr (simplify_loops_refines b)
    | increment a => exact refinesI_refl _
    | pointerIncrement a => exact refinesI_refl _
    | read => exact refinesI_refl _
    | write => exact refinesI_refl _
    | set a => exact refinesI_refl _
termination_by sizeOf l
decreasing_by exact hb

theorem remove_dead_loops_refines (l : List Instruction) :
    refines (remove_dead_loops l) l := by
  rw [remove_dead_loops_def]
  have hco : refines (coalesce mergeDeadLoops l) l :=
    coalesce_refines mergeDeadLoops_refines l
  refine refines_trans ?hmap hco
  case hmap =>
    refine map_refines _ ?_
    intro i hi
    cases i with
    | loop b =>
      have hb : sizeOf b < sizeOf l :=
        sizeOf_lt_of_loop_mem (coalesce_loop_mem mergeDeadLoops_not_loop hi)
      exact loop_congr (remove_dead_loops_refines b)
    | increment a => exact refinesI_refl _
    | pointerIncrement a => exact refinesI_refl _
    | read => exact refinesI_refl _
    | write => exact refinesI_refl _
    | set a => exact refinesI_refl _
termination_by sizeOf l
decreasing_by exact hb

theorem combine_set_and_increments_refines (l : List Instruction) :
    refines (combine_set_and_increments l) l := by
  rw [combine_set_and_increments_def]
  refine refines_trans ?hmap
    (refines_trans (coalesce_refines mergeIncrementAndSet_refines _)
      (refines_trans (coalesce_refines mergeSetAndIncrement_refines _)
        (coalesce_refines mergeSetAndSet_refines l)))
  refine map_refines _ ?_
  intro i hi
  cases i with
  | loop b =>
    have hb : sizeOf b < sizeOf l :=
      sizeOf_lt_of_loop_mem (coalesce_loop_mem mergeSetAndSet_not_loop
        (coalesce_loop_mem mergeSetAndIncrement_not_loop
          (coalesce_loop_mem mergeIncrementAndSet_not_loop hi)))
    exact loop_congr (combine_set_and_increments_refines b)
  | increment a => exact refinesI_refl _
  | pointerIncrement a => exact refinesI_refl _
  | read => exact refinesI_refl _
  | write => exact refinesI_refl _
  | set a => exact refinesI_refl _
termination_by sizeOf l
decreasing_by exact hb

theorem remove_redundant_sets_refines (l : List Instruction) :
    refines (remove_redundant_sets l) l := by
  rw [remove_redundant_sets_def]
  have hco : refines (coalesce mergeRedundantSets l) l :=
    coalesce_refines mergeRedundantSets_refines l
  refine refines_trans ?hmap hco
  case hmap =>
    refine map_refines _ ?_
    intro i hi
    cases i with
    | loop b =>
      have hb : sizeOf b < sizeOf l :=
        sizeOf_lt_of_loop_mem
          (coalesce_loop_mem (fun a b c h =>
            Or.inl (mergeRedundantSets_eq a b c h)) hi)
      exact loop_congr (remove_redundant_sets_refines b)
    | increment a => exact refinesI_refl _
    | pointerIncrement a => exact refinesI_refl _
    | read => exact refinesI_refl _
    | write => exact refinesI_refl _
    | set a => exact refinesI_refl _
termination_by sizeOf l
decreasing_by exact hb

/-- The whole pipeline refines its input. -/
theorem optimize_refines (l : List Instruction) : refines (optimize l) l :=
  refines_trans (remove_redundant_sets_refines _)
    (refines_trans (remove_dead_loops_refines _)
      (refines_trans (combine_set_and_increments_refines _)
        (refines_trans (simplify_loops_refines _)
          (refines_trans (combine_ptr_increments_refines _)
            (combine_increments_refines l)))))

end rust_src

namespace rust_src

/-- The fresh start state: a zeroed tape, head at 0, an arbitrary input
stream, nothing read and nothing written yet. -/
def initState (inp : Nat → Cell) : MState :=
  { tape := fun _ => 0, head := 0, inp := inp, inPos := 0, out := [] }

/-- C1: for every instruction sequence `p` that terminates under the
reference interpreter started on a fresh zeroed tape (with any input
stream), running `optimize p` also terminates, with an identical output
stream and an identical final tape (indeed the whole final state is
reproduced with the same fuel). -/
theorem optimize_preserves_semantics (p : List Instruction)
    (inp : Nat → Cell) (s' : MState)
    (h : ∃ fuel, runList fuel p (initState inp) = some s') :
    ∃ fuel s'', runList fuel (optimize p) (initState inp) = some s'' ∧
      s''.out = s'.out ∧ s''.tape = s'.tape := by
  obtain ⟨fuel, hf⟩ := h
  exact ⟨fuel, s', optimize_refines p fuel _ s' hf, rfl, rfl⟩

lemma optimize_nil : optimize ([] : List Instruction) = [] := by
  show remove_redundant_sets (remove_dead_loops (combine_set_and_increments
    (simplify_loops (combine_ptr_increments (combine_increments []))))) = []
  rw [combine_increments_def, combine_ptr_increments_def, simplify_loops_def,
    combine_set_and_increments_def, remove_dead_loops_def,
    remove_redundant_sets_def]
  rfl

/-- Witness for C1 at the empty program. -/
theorem optimize_preserves_semantics_w :
    (∃ fuel, runList fuel [] (initState fun _ => 0) =
      some (initState fun _ => 0)) ∧
    (∃ fuel s'', runList fuel (optimize []) (initState fun _ => 0) =
        some s'' ∧
      s''.out = (initState fun _ => 0).out ∧
      s''.tape = (initState fun _ => 0).tape) :=
  ⟨⟨0, by rw [runList]⟩,
   optimize_preserves_semantics [] (fun _ => 0) (initState fun _ => 0)
     ⟨0, by rw [runList]⟩⟩

/-- C2 counterexample: `optimize` is not idempotent.  On
`[Set 0, Increment 1, Set 0]` the pipeline's `combine_set_and_increments`
folds the increment into the first set, giving `[Set 1, Set 0]`; a
second run then merges the two adjacent sets into `[Set 0]`. -/
theorem optimize_not_idempotent_cex :
    optimize (optimize [Instruction.set 0, Instruction.increment 1,
        Instruction.set 0]) ≠
      optimize [Instruction.set 0, Instruction.increment 1,
        Instruction.set 0] := by
  have h1 : optimize [Instruction.set 0, Instruction.increment 1,
      Instruction.set 0] = [Instruction.set 1, Instruction.set 0] := by
    show remove_redundant_sets (remove_dead_loops (combine_set_and_increments
      (simplify_loops (combine_ptr_increments (combine_increments
        [Instruction.set 0, Instruction.increment 1, Instruction.set 0]))))) =
      [Instruction.set 1, Instruction.set 0]
    rw [combine_increments_def, combine_ptr_increments_def, simplify_loops_def,
      combine_set_and_increments_def, remove_dead_loops_def,
      remove_redundant_sets_def]
    rfl
  have h2 : optimize [Instruction.set 1, Instruction.set 0] =
      [Instruction.set 0] := by
    show remove_redundant_sets (remove_dead_loops (combine_set_and_increments
      (simplify_loops (combine_ptr_increments (combine_increments
        [Instruction.set 1, Instruction.set 0]))))) = [Instruction.set 0]
    rw [combine_increments_def, combine_ptr_increments_def, simplify_loops_def,
      combine_set_and_increments_def, remove_dead_loops_def,
      remove_redundant_sets_def]
    rfl
  rw [h1, h2]
  simp

/-- C2 (amended): `optimize` is not syntactically idempotent, but a
second application changes nothing observable: with the same fuel,
every terminating run of `optimize p` is reproduced exactly by
`optimize (optimize p)`. -/
theorem optimize_twice_refines (p : List Instruction) (fuel : Nat)
    (s s' : MState) (h : runList fuel (optimize p) s = some s') :
    runList fuel (optimize (optimize p)) s = some s' :=
  optimize_refines (optimize p) fuel s s' h

/-- Witness for C2 (amended) at the empty program. -/
theorem optimize_twice_refines_w :
    runList 0 (optimize []) (initState fun _ => 0) =
      some (initState fun _ => 0) ∧
    runList 0 (optimize (optimize [])) (initState fun _ => 0) =
      some (initState fun _ => 0) := by
  constructor
  · rw [optimize_nil, runList]
  · exact optimize_twice_refines [] 0 _ _ (by rw [optimize_nil, runList])

end rust_src
